import Mathlib

/-!
Verification of the `mywc` word-count utility (src/mywc.c).

The program is embedded shallowly: a file's contents is a `List Int` of byte
values (0..255), `fgetc`'s end-of-stream return value `EOF = -1` is represented
structurally by the end of the list, and each C loop nest is translated into a
structurally recursive scan whose extra arguments are exactly the live local
variables of the loops.  Counters declared `int` in C are modelled as unbounded
`Int`/`Nat` (the specification treats them as mathematical integers).
-/

namespace Mywc

/-- `wspace` (mywc.c lines 116-118): the narrow 6-byte delimiter set
`{9, 10, 11, 12, 13, 32}`. -/
def wspace (c : Int) : Bool :=
  c = 9 ∨ c = 10 ∨ c = 11 ∨ c = 12 ∨ c = 13 ∨ c = 32

/-- `iswspace` from `<wctype.h>` as the program observes it at run time: the
process never calls `setlocale`, so the default `"C"` locale is active and
`iswspace` holds exactly for the six bytes 9, 10, 11, 12, 13 and 32 (and is
false at `WEOF`, which the embedding represents structurally). -/
def iswspace (c : Int) : Bool :=
  c = 9 ∨ c = 10 ∨ c = 11 ∨ c = 12 ∨ c = 13 ∨ c = 32

/-- The counting scan of `wc` (mywc.c lines 126-138) as a state machine over
the byte stream.  The `Bool` argument records whether control is inside the
inner word loop (line 130): `false` is the head of the outer `while`, `true`
means the previous byte was taken as part of a word and the next `fgetc`
belongs to the inner loop.  The result triple is `(lines, words, chars)`.

* outer loop, byte not `iswspace`: `chars++` (line 128), `words++` (line 134,
  folded in at the start of the run), enter the inner loop;
* inner loop, byte not `iswspace`: `chars++` (line 131), stay;
* inner loop, byte `iswspace`: the terminator is counted iff `wspace` holds
  (line 133), tested for `'\n'` (line 136), and control returns to the outer
  loop;
* end of stream inside the inner loop: `iswspace(EOF)` is false and `c == EOF`
  stops the loop; `wspace(EOF)` is false so nothing more is counted. -/
def wcScan : List Int → Bool → Nat × Nat × Nat
  | [], _ => (0, 0, 0)
  | c :: r, false =>
    if iswspace c then
      ((if c = 10 then (wcScan r false).1 + 1 else (wcScan r false).1),
       (wcScan r false).2.1, (wcScan r false).2.2 + 1)
    else
      ((wcScan r true).1, (wcScan r true).2.1 + 1, (wcScan r true).2.2 + 1)
  | c :: r, true =>
    if iswspace c then
      ((if c = 10 then (wcScan r false).1 + 1 else (wcScan r false).1),
       (wcScan r false).2.1,
       (if wspace c then (wcScan r false).2.2 + 1 else (wcScan r false).2.2))
    else
      ((wcScan r true).1, (wcScan r true).2.1, (wcScan r true).2.2 + 1)

/-- Raw `(lines, words, chars)` of one file, before exclusion adjustment. -/
def wcCounts (s : List Int) : Nat × Nat × Nat := wcScan s false

/-- Control state of the first pass of `exclude_comments`
(mywc.c lines 158-170). -/
inductive P1 where
  /-- head of the outer `while`; `c2` is the previous byte (line 169), or the
  uninitialized garbage value of `c2` (line 159) before the first iteration. -/
  | scan (c2 : Int) : P1
  /-- inside the inner loop of line 164, consuming a comment body. -/
  | skip : P1
deriving DecidableEq

/-- First pass of `exclude_comments` (mywc.c lines 156-171): the number of
bytes charged to `CHARS_EXCLUDED`.  In state `scan c2`, a byte `47` (`'/'`)
following `c2 = 47` starts a comment: 2 is added (line 162) and the scan
switches to `skip`; `skip` adds 1 per byte (line 165) until a newline, which
is not counted, sets `c1 = '\n'` (line 167) and hence `c2 = '\n'` (line 169)
for the following outer iteration. -/
def pass1 : List Int → P1 → Int
  | [], _ => 0
  | c :: r, .scan c2 =>
    if c = 47 ∧ c2 = 47 then 2 + pass1 r .skip
    else pass1 r (.scan c)
  | c :: r, .skip =>
    if c = 10 then pass1 r (.scan 10) else 1 + pass1 r .skip

/-- Control state of the second pass of `exclude_comments`
(mywc.c lines 177-208). -/
inductive P2 where
  /-- head of the outer `while` (line 180). -/
  | out : P2
  /-- inside the token loop of line 188: `c2` is the previous token byte
  (line 201) — at token entry it is the uninitialized garbage of line 183 —
  and `nsbc` is `no_space_before_comment` (lines 184-187). -/
  | tok (c2 : Int) (nsbc : Bool) : P2
  /-- inside the comment loop of line 192: `c4` is the previous comment byte
  (lines 191, 194). -/
  | com (c4 : Int) (nsbc : Bool) : P2
deriving DecidableEq

/-- Second pass of `exclude_comments` (mywc.c lines 177-208): the amount added
to `WORDS_EXCLUDED`.  The parameter `g` is the (unspecified) initial value of
the uninitialized `c2` of line 183, read by the marker test of line 189 at
the first iteration of each token.

* `out`: a `wspace` byte is skipped; a non-`wspace` byte `c` enters the token
  loop with `c1 = c`, `c2 = g` and `no_space_before_comment = (c ≠ '/')`;
  if the marker test `c1 == '/' && c2 == '/'` already fires the comment loop
  is entered with `c4 = c1` (line 191);
* `tok c2 nsbc`: a `wspace` byte ends the token (line 188) and control falls
  back to the outer loop; otherwise the marker test runs and either the
  comment loop is entered or the scan advances (lines 200-203);
* `com c4 nsbc`: each byte before the newline adds 1 when it closes a word
  (line 193); at the newline (or end of stream) the trailing word is counted
  (line 196), one is subtracted if `no_space_before_comment` (line 197), and
  `c1 = c3` being `'\n'` (or `EOF`) ends the token loop, so control returns
  to the outer loop. -/
def pass2 (g : Int) : List Int → P2 → Int
  | [], .out => 0
  | [], .tok _ _ => 0
  | [], .com c4 nsbc =>
    (if wspace c4 then 0 else 1) - (if nsbc then 1 else 0)
  | c :: r, .out =>
    if wspace c then pass2 g r .out
    else if c = 47 ∧ g = 47 then pass2 g r (.com c (decide (c ≠ 47)))
    else pass2 g r (.tok c (decide (c ≠ 47)))
  | c :: r, .tok c2 nsbc =>
    if wspace c then pass2 g r .out
    else if c = 47 ∧ c2 = 47 then pass2 g r (.com c nsbc)
    else pass2 g r (.tok c nsbc)
  | c :: r, .com c4 nsbc =>
    if c = 10 then
      ((if wspace c4 then 0 else 1) - (if nsbc then 1 else 0)) + pass2 g r .out
    else (if ¬ wspace c4 ∧ wspace c then 1 else 0) + pass2 g r (.com c nsbc)

/-- `exclude_comments` (mywc.c lines 155-213): the pair
`(chars_excluded, words_excluded)` produced by the two passes; `g1` and `g2`
are the initial values of the two uninitialized `c2` variables
(lines 159 and 183). -/
def exclude_comments (s : List Int) (g1 g2 : Int) : Int × Int :=
  (pass1 s (.scan g1), pass2 g2 s .out)

/-! ### Specification-side vocabulary

The definitions below are written from the specification's vocabulary —
newline-separated lines, maximal runs of non-delimiter bytes, the first
occurrence of the two-byte `//` marker — and are used to state the
characterization theorems about the scans above. -/

/-- Index of the first occurrence of two consecutive `'/'` bytes (the comment
marker `//`), if any. -/
def firstPair : List Int → Option Nat
  | [] => none
  | [_] => none
  | a :: b :: r =>
    if a = 47 ∧ b = 47 then some 0 else (firstPair (b :: r)).map (· + 1)

/-- Number of maximal runs of bytes on which `p` is false; the flag records
whether the scan is currently inside such a run. -/
def countRunsAux (p : Int → Bool) : List Int → Bool → Nat
  | [], _ => 0
  | c :: r, inRun =>
    if p c then countRunsAux p r false
    else (if inRun then 0 else 1) + countRunsAux p r true

/-- Number of maximal runs of bytes on which the delimiter predicate `p` is
false ("words" when `p` classifies whitespace). -/
def countRunsBy (p : Int → Bool) (s : List Int) : Nat := countRunsAux p s false

/-- First byte of the trailing run of non-`wspace` bytes of `l` (`none` when
`l` is empty or ends in a delimiter).  For a position `k` inside some maximal
non-`wspace` token, `lastRunHead` of the first `k` bytes is the first byte of
the token containing position `k`. -/
def lastRunHead (l : List Int) : Option Int :=
  l.foldl (fun st c => if wspace c then none else some (st.getD c)) none

/-- The newline-separated lines of a byte stream: newline bytes are
separators and do not belong to any line; a stream not ending in a newline
still contributes its trailing segment as a line. -/
def splitNl (s : List Int) : List (List Int) :=
  match h : s.dropWhile (· ≠ 10) with
  | [] => [s.takeWhile (· ≠ 10)]
  | _ :: r => s.takeWhile (· ≠ 10) :: splitNl r
termination_by s.length
decreasing_by
  have h1 : (s.dropWhile (· ≠ 10)).length ≤ s.length :=
    (List.dropWhile_sublist _).length_le
  rw [h] at h1
  simp only [List.length_cons] at h1
  omega

/-- The rest of the stream after its first newline byte (everything, if there
is no newline, has been dropped). -/
def afterNl (s : List Int) : List Int := (s.dropWhile (· ≠ 10)).tail

/-- Words a single line charges to `WORDS_EXCLUDED`: nothing without a `//`
marker; with the first marker at index `k`, the number of maximal
non-`wspace` runs from the marker to the end of the line (a run glued to the
marker counts as one), minus one exactly when the token containing the marker
does not begin with a `'/'` byte. -/
def lineExcl (L : List Int) : Int :=
  match firstPair L with
  | none => 0
  | some k =>
    (countRunsBy wspace (L.drop k) : Int) -
      (if ((lastRunHead (L.take k)).getD 47) ≠ 47 then 1 else 0)

/-- Bytes a single line charges to `CHARS_EXCLUDED`: nothing without a `//`
marker; with the first marker at index `k`, the rest of the line from the
marker on, i.e. `L.length - k` bytes (2 marker bytes plus the bytes strictly
between marker and newline). -/
def lineChars (L : List Int) : Int :=
  match firstPair L with
  | none => 0
  | some k => (L.length : Int) - k

/-- Total word exclusion of a stream: the sum of `lineExcl` over its
newline-separated lines. -/
def wordsSum (s : List Int) : Int := ((splitNl s).map lineExcl).sum

/-- Total character exclusion of a stream: the sum of `lineChars` over its
newline-separated lines. -/
def charsSum (s : List Int) : Int := ((splitNl s).map lineChars).sum

/-! ### Claim-side definitions

These two definitions follow the frozen claims' own words (not the source);
they exist to be compared against the behaviour of the code. -/

/-- Number of bytes from the start of `s` up to (not including) the first
newline byte or end of stream. -/
def distToNl (s : List Int) : Nat := (s.takeWhile (· ≠ 10)).length

/-- Claim-side definition for C3, following its words: «the sum, over each
occurrence of two consecutive `/` bytes, of 2 (for the marker bytes) plus the
number of bytes from just after the marker up to but not including the next
newline byte or end-of-stream». -/
def claimCharsSum : List Int → Int
  | a :: b :: r =>
    (if a = 47 ∧ b = 47 then (2 : Int) + distToNl r else 0) + claimCharsSum (b :: r)
  | _ => 0

/-- The maximal runs of non-`wspace` bytes of a stream ("tokens"), each with
its start position; the first argument is fuel making the recursion
structural, instantiated with the length of the stream. -/
def tokensWithPosF : Nat → List Int → Nat → List (List Int × Nat)
  | 0, _, _ => []
  | _, [], _ => []
  | fuel + 1, c :: r, i =>
    if wspace c then tokensWithPosF fuel r (i + 1)
    else
      (c :: r.takeWhile (fun b => ¬ wspace b), i) ::
        tokensWithPosF fuel (r.dropWhile (fun b => ¬ wspace b))
          (i + (c :: r.takeWhile (fun b => ¬ wspace b)).length)

/-- The maximal non-`wspace` tokens of a stream with their start positions. -/
def tokensWithPos (s : List Int) : List (List Int × Nat) := tokensWithPosF s.length s 0

/-- Whether the byte just before position `p` of `s` exists and is not a
delimiter (the claim's «the marker was … glued to preceding non-delimiter
bytes»). -/
def precededByNonDelim (s : List Int) : Nat → Bool
  | 0 => false
  | q + 1 =>
    match s[q]? with
    | some b => ¬ wspace b
    | none => false

/-- Claim-side contribution of one token (C1): a token containing the marker
counts «the whitespace-delimited words lying inside the comment region from
the marker up to (not including) the terminating newline or end-of-stream»,
minus one if and only if the marker was not preceded by a delimiter. -/
def claimTokenExcl (s : List Int) (t : List Int) (i : Nat) : Int :=
  match firstPair t with
  | none => 0
  | some k =>
    (countRunsBy wspace ((s.drop (i + k)).takeWhile (· ≠ 10)) : Int) -
      (if precededByNonDelim s (i + k) then 1 else 0)

/-- Claim-side definition for C1, following its words: the word-exclusion
total is the sum over tokens containing the `//` marker of the comment-region
word count, corrected by one for a marker glued to preceding non-delimiter
bytes. -/
def claimWordExclusion (s : List Int) : Int :=
  ((tokensWithPos s).map (fun ti => claimTokenExcl s ti.1 ti.2)).sum

/-! ### The counting scan -/

theorem iswspace_eq_wspace : iswspace = wspace := rfl

theorem wcScan_chars (s : List Int) : ∀ m, (wcScan s m).2.2 = s.length := by
  induction s with
  | nil => intro m; cases m <;> rfl
  | cons c r ih =>
    intro m
    have hw : iswspace c = wspace c := rfl
    cases m <;> simp only [wcScan, List.length_cons] <;> split <;>
      simp_all [ih]

theorem wcScan_lines (s : List Int) : ∀ m, (wcScan s m).1 = s.count 10 := by
  induction s with
  | nil => intro m; cases m <;> rfl
  | cons c r ih =>
    intro m
    by_cases hc : c = 10
    · subst hc
      have h10 : iswspace 10 = true := by decide
      cases m <;> simp [wcScan, h10, ih, List.count_cons]
    · have hcnt : (c :: r).count 10 = r.count 10 := by
        simp [List.count_cons, hc, eq_comm]
      cases m <;> by_cases h : iswspace c <;>
        simp [wcScan, h, ih, hcnt, hc]

theorem wcScan_words (s : List Int) :
    ∀ m, (wcScan s m).2.1 = countRunsAux iswspace s m := by
  induction s with
  | nil => intro m; cases m <;> rfl
  | cons c r ih =>
    intro m
    cases m <;> by_cases h : iswspace c <;>
      simp [wcScan, countRunsAux, h, ih] <;> omega

theorem countRunsAux_inRun_all (s : List Int)
    (h : ∀ b ∈ s, iswspace b = false) : countRunsAux iswspace s true = 0 := by
  induction s with
  | nil => rfl
  | cons c r ih =>
    have hc : iswspace c = false := h c (by simp)
    simp only [countRunsAux, hc]
    simpa using ih (fun b hb => h b (by simp [hb]))

/-! ### Independence of the exclusion passes from the uninitialized scratch values -/

theorem pass1_scan_init (s : List Int) (g g' : Int) (hg : g ≠ 47) (hg' : g' ≠ 47) :
    pass1 s (.scan g) = pass1 s (.scan g') := by
  cases s with
  | nil => rfl
  | cons c r =>
    simp only [pass1]
    rw [if_neg fun hh => hg hh.2, if_neg fun hh => hg' hh.2]

theorem pass2_init (s : List Int) : ∀ (st : P2) (g g' : Int), g ≠ 47 → g' ≠ 47 →
    pass2 g s st = pass2 g' s st := by
  induction s with
  | nil => intro st g g' _ _; cases st <;> rfl
  | cons c r ih =>
    intro st g g' hg hg'
    have h1 : ¬ (c = 47 ∧ g = 47) := fun hh => hg hh.2
    have h2 : ¬ (c = 47 ∧ g' = 47) := fun hh => hg' hh.2
    cases st with
    | out =>
      simp only [pass2, if_neg h1, if_neg h2]
      split_ifs <;> exact ih _ g g' hg hg'
    | tok c2 nsbc =>
      simp only [pass2]
      split_ifs <;> exact ih _ g g' hg hg'
    | com c4 nsbc =>
      simp only [pass2]
      split_ifs <;> rw [ih _ g g' hg hg']

/-! ### Claim C4: the line count is the number of newline bytes -/

/-- C4: for every byte stream `S`, the counting scan's line count equals the
number of newline bytes (byte 10) occurring in `S`, regardless of word
boundaries or whether the stream ends with a newline. -/
theorem claim_C4 (s : List Int) : (wcCounts s).1 = s.count 10 :=
  wcScan_lines s false

/-! ### Claim C5: the raw word count is the number of maximal non-whitespace runs -/

/-- C5: for every byte stream, the counting scan's raw word count equals the
number of maximal runs of non-whitespace bytes (per the broad whitespace
predicate), a final run at end-of-stream being counted even without a
trailing delimiter; the empty stream yields `(0, 0, 0)` and a non-empty
stream of pure non-whitespace bytes yields exactly one word. -/
theorem claim_C5 :
    (∀ s : List Int, (wcCounts s).2.1 = countRunsBy iswspace s) ∧
    wcCounts [] = (0, 0, 0) ∧
    (∀ s : List Int, s ≠ [] → (∀ b ∈ s, iswspace b = false) →
      (wcCounts s).2.1 = 1) := by
  refine ⟨fun s => wcScan_words s false, rfl, ?_⟩
  intro s hne hall
  rw [show (wcCounts s).2.1 = countRunsAux iswspace s false from wcScan_words s false]
  match s, hne with
  | c :: r, _ =>
    have hc : iswspace c = false := hall c (by simp)
    simp [countRunsAux, hc,
      countRunsAux_inRun_all r (fun b hb => hall b (by simp [hb]))]

theorem claim_C5_witness :
    ([104, 105] : List Int) ≠ [] ∧ (wcCounts [104, 105]).2.1 = 1 :=
  ⟨by decide, claim_C5.2.2 [104, 105] (by decide) (by decide)⟩

/-! ### Claim C6: the raw byte count is the length of the stream -/

/-- C6: for every byte stream, the counting scan's raw byte count equals the
total number of bytes in the stream — every byte consumed increments the byte
counter exactly once. -/
theorem claim_C6 (s : List Int) : (wcCounts s).2.2 = s.length :=
  wcScan_chars s false

/-! ### Claim C10: dependence on the uninitialized scratch variables -/

/-- C10 is refuted on the one-byte file `"/"`: with both uninitialized
scratch values equal to `'/'` (47) the pre-pass reports `(2, 1)`, with both
equal to 0 it reports `(0, 0)`, so the output is not a function of the file
content alone. -/
theorem claim_C10_counterexample :
    exclude_comments [47] 47 47 ≠ exclude_comments [47] 0 0 ∧
    exclude_comments [47] 47 47 = (2, 1) ∧
    exclude_comments [47] 0 0 = (0, 0) := by decide

/-- C10 (amended): the pre-pass output is a function of the file content
alone as long as neither uninitialized scratch value happens to be the byte
`'/'` (47): any two such pairs of initial values yield equal
`(excluded_chars, excluded_words)`. -/
theorem claim_C10 (s : List Int) (g1 g2 g1' g2' : Int)
    (h1 : g1 ≠ 47) (h2 : g2 ≠ 47) (h1' : g1' ≠ 47) (h2' : g2' ≠ 47) :
    exclude_comments s g1 g2 = exclude_comments s g1' g2' := by
  unfold exclude_comments
  rw [pass1_scan_init s g1 g1' h1 h1', pass2_init s .out g2 g2' h2 h2']

theorem claim_C10_witness :
    (0 : Int) ≠ 47 ∧ (1 : Int) ≠ 47 ∧
    exclude_comments [47, 47, 97] 0 0 = exclude_comments [47, 47, 97] 1 1 :=
  ⟨by decide, by decide,
    claim_C10 [47, 47, 97] 0 0 1 1 (by decide) (by decide) (by decide) (by decide)⟩

/-! ### Claim C2: the worked example `"foo // bar baz\n"` -/

/-- C2 is refuted: on `"foo // bar baz\n"` the word-exclusion pass charges 3
words (the `//` token itself as well as `bar` and `baz`), not 2, so the
reported word count is 1, not 2. -/
theorem claim_C2_counterexample :
    (exclude_comments [102, 111, 111, 32, 47, 47, 32, 98, 97, 114, 32, 98, 97, 122, 10]
        0 0).2 = 3 ∧ (3 : Int) ≠ 2 := by decide

/-- C2 (amended): for the input `"foo // bar baz\n"` with comment exclusion
enabled, raw words = 4 and excluded_words = 3 (the `//` token, `bar` and
`baz`), so the reported word count is 1; raw bytes = 15 and
excluded_chars = 10, so the reported byte count is 5 (for any values of the
uninitialized scratch bytes other than `'/'`). -/
theorem claim_C2 (g1 g2 : Int) (h1 : g1 ≠ 47) (h2 : g2 ≠ 47) :
    wcCounts [102, 111, 111, 32, 47, 47, 32, 98, 97, 114, 32, 98, 97, 122, 10] =
      (1, 4, 15) ∧
    exclude_comments [102, 111, 111, 32, 47, 47, 32, 98, 97, 114, 32, 98, 97, 122, 10]
      g1 g2 = (10, 3) ∧
    (4 : Int) - 3 = 1 ∧ (15 : Int) - 10 = 5 := by
  refine ⟨by decide, ?_, by decide, by decide⟩
  unfold exclude_comments
  rw [pass1_scan_init _ g1 0 h1 (by decide), pass2_init _ .out g2 0 h2 (by decide)]
  decide

theorem claim_C2_witness :
    (0 : Int) ≠ 47 ∧
    exclude_comments [102, 111, 111, 32, 47, 47, 32, 98, 97, 114, 32, 98, 97, 122, 10]
      0 0 = (10, 3) :=
  ⟨by decide, (claim_C2 0 0 (by decide) (by decide)).2.1⟩

/-! ### The aggregator and the per-file driver loop -/

/-- The exclusion state after the optional pre-pass of one file
(mywc.c line 232): `exclude_comments` adds its two pass results into the
globals `CHARS_EXCLUDED` and `WORDS_EXCLUDED`. -/
def preState (ell : Bool) (g1 g2 : Int) (s : List Int) (e : Int × Int) : Int × Int :=
  if ell then (e.1 + pass1 s (.scan g1), e.2 + pass2 g2 s .out) else e

/-- The adjusted per-file counts of `wc` (mywc.c lines 140-146): lines as
counted, words and bytes with the current exclusion state subtracted. -/
def adjusted (s : List Int) (e : Int × Int) : Int × Int × Int :=
  (((wcCounts s).1 : Int), ((wcCounts s).2.1 : Int) - e.2,
    ((wcCounts s).2.2 : Int) - e.1)

/-- Componentwise sum of two count triples (the `TOTAL_*` updates of
mywc.c lines 144-146). -/
def addT (t r : Int × Int × Int) : Int × Int × Int :=
  (t.1 + r.1, t.2.1 + r.2.1, t.2.2 + r.2.2)

/-- Componentwise sum of a list of per-file count triples. -/
def totalOf (reps : List (Int × Int × Int)) : Int × Int × Int :=
  reps.foldr (fun r t => addT t r) (0, 0, 0)

/-- The per-file loop of `main` over already-opened file contents
(mywc.c lines 230-235 together with `wc`, lines 140-148): for each file, the
optional pre-pass updates the exclusion state, the adjusted counts are
emitted and folded into the running totals, and the exclusion state is reset
to `(0, 0)` (line 148) before the next file.  Returns the emitted per-file
triples, the final exclusion state and the final totals. -/
def processFiles (ell : Bool) (g1 g2 : Int) :
    List (List Int) → Int × Int → Int × Int × Int →
      List (Int × Int × Int) × (Int × Int) × (Int × Int × Int)
  | [], e, t => ([], e, t)
  | s :: rest, e, t =>
    (adjusted s (preState ell g1 g2 s e) ::
        (processFiles ell g1 g2 rest (0, 0)
          (addT t (adjusted s (preState ell g1 g2 s e)))).1,
      (processFiles ell g1 g2 rest (0, 0)
          (addT t (adjusted s (preState ell g1 g2 s e)))).2)

/-- The counts reported for one file processed with a fresh (zero) exclusion
state. -/
def reportOf (ell : Bool) (g1 g2 : Int) (s : List Int) : Int × Int × Int :=
  adjusted s (preState ell g1 g2 s (0, 0))

theorem processFiles_run (ell : Bool) (g1 g2 : Int) (fs : List (List Int)) :
    ∀ t0 : Int × Int × Int,
      processFiles ell g1 g2 fs (0, 0) t0 =
        (fs.map (reportOf ell g1 g2), (0, 0),
          addT t0 (totalOf (fs.map (reportOf ell g1 g2)))) := by
  induction fs with
  | nil =>
    intro t0
    simp [processFiles, totalOf, addT]
  | cons s rest ih =>
    intro t0
    simp only [processFiles, List.map_cons, ih, reportOf, totalOf, List.foldr_cons,
      addT, Prod.mk.injEq, List.cons.injEq, true_and, and_true]
    omega

/-- C7: for every file sequence, the reported per-file counts are
`(lines, words − excluded_words, bytes − excluded_chars)`, exactly these
adjusted values are folded into the running totals, the exclusion state is
reset to `(0, 0)` after every file so it never carries over, and the final
totals equal the componentwise sum of the per-file adjusted counts. -/
theorem claim_C7 (ell : Bool) (g1 g2 : Int) (fs : List (List Int)) :
    (processFiles ell g1 g2 fs (0, 0) (0, 0, 0)).1 = fs.map (reportOf ell g1 g2) ∧
    (processFiles ell g1 g2 fs (0, 0) (0, 0, 0)).2.1 = (0, 0) ∧
    (processFiles ell g1 g2 fs (0, 0) (0, 0, 0)).2.2 =
      totalOf (fs.map (reportOf ell g1 g2)) := by
  rw [processFiles_run ell g1 g2 fs (0, 0, 0)]
  refine ⟨rfl, rfl, ?_⟩
  simp [addT]

/-! ### Error handling of the driver

File names are modelled as natural numbers and the file system as a pure map
`openF : Nat → Option (List Int)`; `openF n = none` means every `fopen` of
file `n` returns `NULL`.  All three `fopen` calls made for one file (mywc.c
lines 156 and 177 in `exclude_comments`, line 124 in `wc`) query the same
pure map, so the first of them failing is exactly `openF n = none`; each
failure site calls `exit(EXIT_FAILURE)` (lines 151, 174, 210), which aborts
the whole run before any further output. -/

/-- The driver loop with fallible opens: returns the per-file triples emitted
before any failure, and `some` final totals on success, `none` if some open
failed (in which case the loop stopped at the first failing file and the
totals were never used). -/
def runFiles (ell : Bool) (g1 g2 : Int) (openF : Nat → Option (List Int)) :
    List Nat → Int × Int → Int × Int × Int →
      List (Int × Int × Int) × Option (Int × Int × Int)
  | [], _, t => ([], some t)
  | n :: rest, e, t =>
    match openF n with
    | none => ([], none)
    | some s =>
      (adjusted s (preState ell g1 g2 s e) ::
          (runFiles ell g1 g2 openF rest (0, 0)
            (addT t (adjusted s (preState ell g1 g2 s e)))).1,
        (runFiles ell g1 g2 openF rest (0, 0)
            (addT t (adjusted s (preState ell g1 g2 s e)))).2)

/-- Exit status of a run: `exit(0)` (mywc.c line 259) on success,
`exit(EXIT_FAILURE) = 1` on any failed open. -/
def exitCode (res : List (Int × Int × Int) × Option (Int × Int × Int)) : Nat :=
  match res.2 with
  | some _ => 0
  | none => 1

/-- The `total` line (mywc.c line 238): printed only when the run completed
and more than one file name was given. -/
def totalsLine (res : List (Int × Int × Int) × Option (Int × Int × Int))
    (numfiles : Nat) : Option (Int × Int × Int) :=
  match res.2 with
  | some t => if numfiles > 1 then some t else none
  | none => none

theorem runFiles_spec (ell : Bool) (g1 g2 : Int) (openF : Nat → Option (List Int))
    (names : List Nat) : ∀ (e : Int × Int) (t : Int × Int × Int),
      ((runFiles ell g1 g2 openF names e t).2.isSome ↔
        ∀ n ∈ names, (openF n).isSome) ∧
      (runFiles ell g1 g2 openF names e t).1.length =
        (names.takeWhile (fun n => (openF n).isSome)).length := by
  induction names with
  | nil => intro e t; simp [runFiles]
  | cons n rest ih =>
    intro e t
    cases h : openF n with
    | none =>
      refine ⟨?_, ?_⟩
      · simp [runFiles, h]
      · simp [runFiles, h, List.takeWhile_cons, Option.isSome]
    | some s =>
      refine ⟨?_, ?_⟩
      · simp only [runFiles, h]
        rw [(ih _ _).1]
        simp [h]
      · simp only [runFiles, h, List.length_cons]
        rw [(ih _ _).2]
        simp [List.takeWhile_cons, h, Option.isSome]

theorem exitCode_zero_iff (res : List (Int × Int × Int) × Option (Int × Int × Int)) :
    exitCode res = 0 ↔ res.2.isSome := by
  cases hr : res.2 <;> simp [exitCode, hr]

theorem totalsLine_none (res : List (Int × Int × Int) × Option (Int × Int × Int))
    (k : Nat) (h : res.2 = none) : totalsLine res k = none := by
  simp [totalsLine, h]

/-- C9: the process exits with status 0 exactly when every named input file
can be opened (each of the three `fopen` calls per file, two of them inside
the comment-exclusion pre-pass, sees the same file system); on any open
failure the run stops at the first failing file — only the files strictly
before it have produced output — the exit status is non-zero, and the totals
line is not computed or printed for that run. -/
theorem claim_C9 (ell : Bool) (g1 g2 : Int) (openF : Nat → Option (List Int))
    (names : List Nat) :
    (exitCode (runFiles ell g1 g2 openF names (0, 0) (0, 0, 0)) = 0 ↔
      ∀ n ∈ names, (openF n).isSome) ∧
    (exitCode (runFiles ell g1 g2 openF names (0, 0) (0, 0, 0)) ≠ 0 →
      totalsLine (runFiles ell g1 g2 openF names (0, 0) (0, 0, 0))
        names.length = none) ∧
    (runFiles ell g1 g2 openF names (0, 0) (0, 0, 0)).1.length =
      (names.takeWhile (fun n => (openF n).isSome)).length := by
  obtain ⟨h1, h2⟩ := runFiles_spec ell g1 g2 openF names (0, 0) (0, 0, 0)
  refine ⟨(exitCode_zero_iff _).trans h1, ?_, h2⟩
  intro hne
  refine totalsLine_none _ _ ?_
  cases hr : (runFiles ell g1 g2 openF names (0, 0) (0, 0, 0)).2 with
  | none => rfl
  | some t =>
    exact absurd ((exitCode_zero_iff _).mpr (by rw [hr]; rfl)) hne

/-! ### Argument parsing and flag selection

Command-line arguments (`argv[1..]`) are modelled as lists of characters.
The flag state is the quadruple `(W, L, C, ellide)` of the four globals and
the local `ellide_comments` of `main`.  `wc` prints the per-file counts under
the flags in force when the file name is reached (mywc.c lines 140-142), in
the fixed order lines, words, bytes. -/

/-- One argument's worth of characters (`argv[i][1..]`, mywc.c lines
224-229) applied to the flag state `(W, L, C, ellide)`: `'C'` sets
`ellide_comments`, `'w'`, `'l'`, `'c'` set the corresponding display flag,
anything else is silently ignored. -/
def applyFlags : List Char → Bool × Bool × Bool × Bool → Bool × Bool × Bool × Bool
  | [], f => f
  | ch :: cs, f =>
    applyFlags cs
      (if ch = 'C' then (f.1, f.2.1, f.2.2.1, true)
       else if ch = 'w' then (true, f.2.1, f.2.2.1, f.2.2.2)
       else if ch = 'l' then (f.1, true, f.2.2.1, f.2.2.2)
       else if ch = 'c' then (f.1, f.2.1, true, f.2.2.2)
       else f)

/-- The condition of mywc.c line 217 under which all three counts are shown
by default: no arguments at all, or the first argument does not start with
`'-'` (an empty first argument reads its terminating NUL there), or the
first argument is exactly `"-C"`. -/
def defaultAll (args : List (List Char)) : Bool :=
  match args with
  | [] => true
  | a :: _ => a.head? ≠ some '-' ∨ a = ['-', 'C']

/-- The loop of `main` over the arguments (mywc.c lines 220-236): an argument
starting with `'-'` updates the flag state; any other argument is a file
name, recorded together with the display flags `(L, W, C)` in force when it
is printed. -/
def mainArgs : List (List Char) → Bool × Bool × Bool × Bool →
    List (List Char × (Bool × Bool × Bool))
  | [], _ => []
  | a :: rest, f =>
    if a.head? = some '-' then mainArgs rest (applyFlags (a.drop 1) f)
    else (a, (f.2.1, f.1, f.2.2.1)) :: mainArgs rest f

/-- The file names of a command line together with the `(L, W, C)` display
flags each is printed under (mywc.c line 217 initializes `W = L = C` to the
`defaultAll` condition; `ellide_comments` starts false, line 218). -/
def runArgs (args : List (List Char)) : List (List Char × (Bool × Bool × Bool)) :=
  mainArgs args (defaultAll args, defaultAll args, defaultAll args, false)

/-- Whether a character occurs in a list of characters. -/
def hasChar : List Char → Char → Bool
  | [], _ => false
  | d :: cs, ch => decide (d = ch) || hasChar cs ch

/-- Whether some argument of `xs` is a flag argument (starts with `'-'`)
containing the flag character `ch` after the dash. -/
def anyFlag : List (List Char) → Char → Bool
  | [], _ => false
  | a :: rest, ch =>
    (decide (a.head? = some '-') && hasChar (a.drop 1) ch) || anyFlag rest ch

/-- Specification-side display flags for a file preceded by the arguments
`seen`: each of `(L, W, C)` is on iff all three are on by default or some
earlier flag argument requested it. -/
def specShown (all : Bool) (seen : List (List Char)) : Bool × Bool × Bool :=
  (all || anyFlag seen 'l', all || anyFlag seen 'w', all || anyFlag seen 'c')

/-- Specification-side description of the argument loop: every file name is
paired with the flags determined by the full list of arguments before it. -/
def specRunAux (all : Bool) : List (List Char) → List (List Char) →
    List (List Char × (Bool × Bool × Bool))
  | _, [] => []
  | seen, a :: rest =>
    if a.head? = some '-' then specRunAux all (seen ++ [a]) rest
    else (a, specShown all seen) :: specRunAux all (seen ++ [a]) rest

/-- Specification-side version of `runArgs`. -/
def specRun (args : List (List Char)) : List (List Char × (Bool × Bool × Bool)) :=
  specRunAux (defaultAll args) [] args

/-- Claim-side reading of C8: if any of `-c`, `-l`, `-w` appears anywhere on
the command line, exactly the requested subset is shown (for every file);
otherwise all three counts are shown. -/
def claimShown (args : List (List Char)) : Bool × Bool × Bool :=
  if anyFlag args 'c' || anyFlag args 'l' || anyFlag args 'w' then
    (anyFlag args 'l', anyFlag args 'w', anyFlag args 'c')
  else (true, true, true)

theorem applyFlags_spec (cs : List Char) : ∀ f : Bool × Bool × Bool × Bool,
    applyFlags cs f =
      (f.1 || hasChar cs 'w', f.2.1 || hasChar cs 'l',
       f.2.2.1 || hasChar cs 'c', f.2.2.2 || hasChar cs 'C') := by
  induction cs with
  | nil => intro f; simp [applyFlags, hasChar]
  | cons d cs ih =>
    intro f
    simp only [applyFlags, ih, hasChar]
    by_cases hC : d = 'C' <;> by_cases hw : d = 'w' <;> by_cases hl : d = 'l' <;>
        by_cases hc : d = 'c' <;>
      simp_all [Bool.or_assoc, Bool.or_comm, Bool.or_left_comm]

theorem anyFlag_append (xs : List (List Char)) (a : List Char) (ch : Char) :
    anyFlag (xs ++ [a]) ch =
      (anyFlag xs ch || (decide (a.head? = some '-') && hasChar (a.drop 1) ch)) := by
  induction xs with
  | nil => simp [anyFlag]
  | cons b xs ih =>
    simp only [List.cons_append, anyFlag, List.append_eq]
    rw [ih]
    simp [Bool.or_assoc]

theorem mainArgs_spec (rest : List (List Char)) :
    ∀ (all : Bool) (seen : List (List Char)) (f : Bool × Bool × Bool × Bool),
      f.1 = (all || anyFlag seen 'w') → f.2.1 = (all || anyFlag seen 'l') →
      f.2.2.1 = (all || anyFlag seen 'c') →
      mainArgs rest f = specRunAux all seen rest := by
  induction rest with
  | nil => intro all seen f _ _ _; rfl
  | cons a rest ih =>
    intro all seen f hw hl hc
    by_cases ha : a.head? = some '-'
    · simp only [mainArgs, specRunAux, if_pos ha]
      refine ih all (seen ++ [a]) _ ?_ ?_ ?_ <;>
        rw [applyFlags_spec] <;>
        simp [hw, hl, hc, anyFlag_append, ha, Bool.or_assoc]
    · have hseen : ∀ ch, anyFlag (seen ++ [a]) ch = anyFlag seen ch := by
        intro ch
        rw [anyFlag_append]
        simp [ha]
      simp only [mainArgs, specRunAux, if_neg ha]
      rw [ih all (seen ++ [a]) f (by rw [hw, hseen]) (by rw [hl, hseen])
        (by rw [hc, hseen])]
      simp [specShown, hw, hl, hc]

/-- C8 is refuted on the command line `-C -w f`: its first argument is
exactly `-C`, so the code shows all three counts for the file `f` even
though `-w` is explicitly given, while the claim requires only the word
count to be shown. -/
theorem claim_C8_counterexample :
    runArgs [['-', 'C'], ['-', 'w'], ['f']] =
      [(['f'], (true, true, true))] ∧
    claimShown [['-', 'C'], ['-', 'w'], ['f']] = (false, true, false) ∧
    ((true, true, true) : Bool × Bool × Bool) ≠ (false, true, false) := by
  decide

/-- C8 (amended): if no flags are given, or the first argument is not a
flag, or the first argument is exactly `-C`, all three counts are shown for
every file regardless of any later `-c`/`-l`/`-w`; otherwise each file shows
exactly the subset of counts requested by the flag arguments preceding it on
the command line — always in line/word/byte order, the order in which `wc`
prints them. -/
theorem claim_C8 (args : List (List Char)) : runArgs args = specRun args := by
  unfold runArgs specRun
  exact mainArgs_spec args (defaultAll args) [] _ (by simp [anyFlag])
    (by simp [anyFlag]) (by simp [anyFlag])

/-! ### Lines, markers and run counts: basic lemmas -/

theorem firstPair_cons (a b : Int) (r : List Int) (h : ¬ (a = 47 ∧ b = 47)) :
    firstPair (a :: b :: r) = (firstPair (b :: r)).map (· + 1) := by
  simp [firstPair, h]

theorem firstPair_marker (r : List Int) : firstPair (47 :: 47 :: r) = some 0 := by
  simp [firstPair]

theorem splitNl_nil : splitNl [] = [[]] := by
  unfold splitNl
  rfl

theorem charsSum_nil : charsSum [] = 0 := by
  unfold charsSum
  rw [splitNl_nil]
  simp [lineChars, firstPair]

theorem wordsSum_nil : wordsSum [] = 0 := by
  unfold wordsSum
  rw [splitNl_nil]
  simp [lineExcl, firstPair]

theorem charsSum_eq (s : List Int) :
    charsSum s = lineChars (s.takeWhile (· ≠ 10)) + charsSum (afterNl s) := by
  unfold charsSum afterNl
  rw [splitNl]
  cases h : s.dropWhile (· ≠ 10) with
  | nil => simp [h, splitNl_nil, lineChars, firstPair]
  | cons x r => simp [h]

theorem wordsSum_eq (s : List Int) :
    wordsSum s = lineExcl (s.takeWhile (· ≠ 10)) + wordsSum (afterNl s) := by
  unfold wordsSum afterNl
  rw [splitNl]
  cases h : s.dropWhile (· ≠ 10) with
  | nil => simp [h, splitNl_nil, lineExcl, firstPair]
  | cons x r => simp [h]

theorem afterNl_cons_ne (c : Int) (r : List Int) (h : c ≠ 10) :
    afterNl (c :: r) = afterNl r := by
  unfold afterNl
  rw [List.dropWhile_cons_of_pos (by simpa using h)]

theorem afterNl_cons_10 (r : List Int) : afterNl (10 :: r) = r := by
  unfold afterNl
  rw [List.dropWhile_cons_of_neg (by simp)]
  rfl

theorem afterNl_length (s : List Int) : (afterNl s).length ≤ s.length := by
  have h1 : (s.dropWhile (· ≠ 10)).length ≤ s.length :=
    (List.dropWhile_sublist _).length_le
  have h2 : (s.dropWhile (· ≠ 10)).tail.length ≤ (s.dropWhile (· ≠ 10)).length := by
    rw [List.length_tail]
    omega
  exact le_trans h2 h1

theorem lineChars_nil : lineChars [] = 0 := rfl

theorem lineChars_cons (c : Int) (L : List Int)
    (h : ¬ (c = 47 ∧ L.head? = some 47)) : lineChars (c :: L) = lineChars L := by
  cases L with
  | nil => rfl
  | cons d L2 =>
    have h' : ¬ (c = 47 ∧ d = 47) := by simpa using h
    cases hfp : firstPair (d :: L2) with
    | none => simp [lineChars, firstPair_cons c d L2 h', hfp]
    | some k =>
      simp only [lineChars, firstPair_cons c d L2 h', hfp, Option.map_some',
        List.length_cons]
      push_cast
      omega

theorem lineChars_marker (X : List Int) :
    lineChars (47 :: 47 :: X) = (X.length : Int) + 2 := by
  simp only [lineChars, firstPair_marker, List.length_cons]
  push_cast
  ring

/-! ### The first exclusion pass computes `charsSum` -/

theorem pass1_skip (s : List Int) :
    pass1 s .skip =
      ((s.takeWhile (· ≠ 10)).length : Int) + pass1 (afterNl s) (.scan 10) := by
  induction s with
  | nil => simp [pass1, afterNl]
  | cons c r ih =>
    by_cases h : c = 10
    · subst h
      rw [List.takeWhile_cons_of_neg (by simp), afterNl_cons_10]
      simp [pass1]
    · rw [List.takeWhile_cons_of_pos (by simpa using h), afterNl_cons_ne c r h]
      simp only [pass1, if_neg h, List.length_cons, ih]
      push_cast
      ring

theorem pass1_scan_chars : ∀ (n : Nat) (s : List Int), s.length ≤ n → ∀ p : Int,
    ¬ (p = 47 ∧ s.head? = some 47) → pass1 s (.scan p) = charsSum s := by
  intro n
  induction n with
  | zero =>
    intro s hs p _
    have hnil : s = [] := List.length_eq_zero.mp (Nat.le_zero.mp hs)
    subst hnil
    simp [pass1, charsSum_nil]
  | succ n ih =>
    intro s hs p hp
    cases s with
    | nil => simp [pass1, charsSum_nil]
    | cons c r =>
      have hcr : ¬ (c = 47 ∧ p = 47) := fun hh => hp ⟨hh.2, by simp [hh.1]⟩
      rw [show pass1 (c :: r) (.scan p) = pass1 r (.scan c) from by
        simp [pass1, hcr]]
      by_cases h10 : c = 10
      · subst h10
        rw [ih r (Nat.le_of_succ_le_succ (by simpa using hs)) 10 (by simp)]
        rw [charsSum_eq (10 :: r), List.takeWhile_cons_of_neg (by simp),
          afterNl_cons_10, lineChars_nil]
        ring
      · by_cases h47 : c = 47
        · subst h47
          cases r with
          | nil =>
            rw [show pass1 ([] : List Int) (.scan 47) = 0 from rfl]
            rw [charsSum_eq [47], List.takeWhile_cons_of_pos (by simp)]
            simp [lineChars, firstPair, afterNl, charsSum_nil]
          | cons d r2 =>
            by_cases hd : d = 47
            · subst hd
              rw [show pass1 (47 :: r2) (.scan (47 : Int)) = 2 + pass1 r2 .skip from by
                simp [pass1]]
              rw [pass1_skip r2]
              have hlen : (afterNl r2).length ≤ n := by
                have h1 := afterNl_length r2
                simp only [List.length_cons] at hs
                omega
              rw [ih (afterNl r2) hlen 10 (by simp)]
              rw [charsSum_eq (47 :: 47 :: r2), afterNl_cons_ne _ _ (by decide),
                afterNl_cons_ne _ _ (by decide),
                List.takeWhile_cons_of_pos (by decide),
                List.takeWhile_cons_of_pos (by decide), lineChars_marker]
              push_cast
              ring
            · rw [ih (d :: r2) (Nat.le_of_succ_le_succ (by simpa using hs)) 47
                (by simp [hd])]
              have hhead :
                  ¬ ((47 : Int) = 47 ∧ ((d :: r2).takeWhile (· ≠ 10)).head? = some 47) := by
                intro hh
                by_cases hd10 : d = 10
                · rw [List.takeWhile_cons_of_neg (by simp [hd10])] at hh
                  simp at hh
                · rw [List.takeWhile_cons_of_pos (by simpa using hd10)] at hh
                  exact hd (by simpa using hh.2)
              rw [charsSum_eq (47 :: d :: r2), afterNl_cons_ne _ _ (by decide),
                List.takeWhile_cons_of_pos (by decide),
                lineChars_cons 47 _ hhead, ← charsSum_eq (d :: r2)]
        · rw [ih r (Nat.le_of_succ_le_succ (by simpa using hs)) c (by simp [h47])]
          have hhead :
              ¬ (c = 47 ∧ (r.takeWhile (· ≠ 10)).head? = some 47) :=
            fun hh => h47 hh.1
          rw [charsSum_eq (c :: r), afterNl_cons_ne c r h10,
            List.takeWhile_cons_of_pos (by simpa using h10),
            lineChars_cons c _ hhead, ← charsSum_eq r]

/-! ### Claim C3: the character-exclusion pass -/

/-- C3 is refuted on the newline-free file `"a//b//c"`: summing over every
occurrence of two consecutive `'/'` bytes gives `(2+4) + (2+1) = 9`, but the
pass reports 6, because after a detected marker the scan resumes only after
the terminating newline (or end of stream), so the second `//`, which lies
inside the first comment, is never counted. -/
theorem claim_C3_counterexample :
    pass1 [97, 47, 47, 98, 47, 47, 99] (.scan 0) = 6 ∧
    claimCharsSum [97, 47, 47, 98, 47, 47, 99] = 9 ∧ (6 : Int) ≠ 9 := by
  decide

/-- C3 (amended): for every input file (and any value of the uninitialized
scratch byte other than `'/'`), the character-exclusion pass computes
`excluded_chars` as the sum over newline-separated lines of: 0 for a line
without two consecutive `'/'` bytes, and the length of the line from its
first such occurrence on (2 marker bytes plus the bytes up to but not
including the newline or end-of-stream) otherwise — occurrences after the
first one on a line are not counted separately. -/
theorem claim_C3 (s : List Int) (g : Int) (hg : g ≠ 47) :
    pass1 s (.scan g) = charsSum s :=
  pass1_scan_chars s.length s le_rfl g (fun hh => hg hh.1)

theorem claim_C3_witness :
    (0 : Int) ≠ 47 ∧
    pass1 [47, 47, 97, 10, 98] (.scan 0) = charsSum [47, 47, 97, 10, 98] :=
  ⟨by decide, claim_C3 [47, 47, 97, 10, 98] 0 (by decide)⟩

/-! ### More marker lemmas, for the word-exclusion pass -/

theorem wspace_47 : wspace 47 = false := by decide

theorem wspace_ne_10 (b : Int) (h : wspace b = false) : b ≠ 10 := by
  intro hb
  rw [hb] at h
  exact absurd h (by decide)

theorem firstPair_cons' (a : Int) (Z : List Int)
    (h : ¬ (a = 47 ∧ Z.head? = some 47)) :
    firstPair (a :: Z) = (firstPair Z).map (· + 1) := by
  cases Z with
  | nil => rfl
  | cons b Z2 => exact firstPair_cons a b Z2 (by simpa using h)

theorem firstPair_cons_none (a : Int) (Z : List Int) (h : firstPair (a :: Z) = none) :
    ¬ (a = 47 ∧ Z.head? = some 47) ∧ firstPair Z = none := by
  cases Z with
  | nil => exact ⟨by simp, rfl⟩
  | cons b Z2 =>
    by_cases hp : a = 47 ∧ b = 47
    · simp [firstPair, hp] at h
    · refine ⟨by simpa using hp, ?_⟩
      rw [firstPair_cons a b Z2 hp] at h
      simpa using h

theorem firstPair_append (Y : List Int) : ∀ (X : List Int) (j : Nat),
    firstPair X = some j → firstPair (X ++ Y) = some j := by
  intro X
  induction X with
  | nil => intro j h; simp [firstPair] at h
  | cons a X' ih =>
    intro j h
    cases X' with
    | nil => simp [firstPair] at h
    | cons b X2 =>
      by_cases hp : a = 47 ∧ b = 47
      · have hj : j = 0 := by
          rw [show firstPair (a :: b :: X2) = some 0 from by simp [firstPair, hp]] at h
          simpa using h.symm
        subst hj
        simp [firstPair, hp]
      · rw [firstPair_cons a b X2 hp] at h
        cases hfp : firstPair (b :: X2) with
        | none => rw [hfp] at h; simp at h
        | some j' =>
          rw [hfp] at h
          have hj : j = j' + 1 := by simpa using h.symm
          subst hj
          have ihY : firstPair (b :: (X2 ++ Y)) = some j' := ih j' hfp
          show firstPair (a :: b :: (X2 ++ Y)) = some (j' + 1)
          rw [firstPair_cons a b (X2 ++ Y) hp, ihY]
          rfl

theorem firstPair_drop : ∀ (X : List Int) (j : Nat), firstPair X = some j →
    X.drop j = 47 :: 47 :: X.drop (j + 2) := by
  intro X
  induction X with
  | nil => intro j h; simp [firstPair] at h
  | cons a X' ih =>
    intro j h
    cases X' with
    | nil => simp [firstPair] at h
    | cons b X2 =>
      by_cases hp : a = 47 ∧ b = 47
      · have hj : j = 0 := by
          rw [show firstPair (a :: b :: X2) = some 0 from by simp [firstPair, hp]] at h
          simpa using h.symm
        subst hj
        simp [hp.1, hp.2]
      · rw [firstPair_cons a b X2 hp] at h
        cases hfp : firstPair (b :: X2) with
        | none => rw [hfp] at h; simp at h
        | some j' =>
          rw [hfp] at h
          simp only [Option.map_some'] at h
          have hj : j = j' + 1 := by simpa using h.symm
          subst hj
          have := ih j' hfp
          simpa [List.drop_succ_cons] using this

theorem firstPair_some_le (X : List Int) (j : Nat) (h : firstPair X = some j) :
    j + 2 ≤ X.length := by
  have hd := firstPair_drop X j h
  have hlen := congrArg List.length hd
  simp only [List.length_drop, List.length_cons] at hlen
  omega

theorem firstPair_append_none (d : Int) (M : List Int) (hd : d ≠ 47) :
    ∀ X : List Int, firstPair X = none →
      firstPair (X ++ d :: M) = (firstPair M).map (fun k => k + (X.length + 1)) := by
  intro X
  induction X with
  | nil =>
    intro _
    rw [List.nil_append,
      firstPair_cons' d M (fun hh => hd hh.1)]
    simp
  | cons a X' ih =>
    intro hX
    obtain ⟨hpair, hX'⟩ := firstPair_cons_none a X' hX
    have hhead : ¬ (a = 47 ∧ (X' ++ d :: M).head? = some 47) := by
      cases X' with
      | nil => simpa using fun ha hd' => hd hd'
      | cons b X2 => simpa using fun ha hb => hpair ⟨ha, by simp [hb]⟩
    rw [List.cons_append, firstPair_cons' a (X' ++ d :: M) hhead, ih hX']
    cases firstPair M with
    | none => rfl
    | some k =>
      simp only [Option.map_some', List.length_cons, Option.some.injEq]
      omega

theorem lastRunHead_append_wspace (X : List Int) (d : Int) (Y : List Int)
    (hd : wspace d = true) : lastRunHead (X ++ d :: Y) = lastRunHead Y := by
  unfold lastRunHead
  rw [List.foldl_append, List.foldl_cons, hd]
  rfl

theorem lastRunHead_stay (a : Int) : ∀ X : List Int,
    (∀ b ∈ X, wspace b = false) →
    X.foldl (fun st c => if wspace c then none else some (st.getD c)) (some a) = some a := by
  intro X
  induction X with
  | nil => intro _; rfl
  | cons b X' ih =>
    intro h
    rw [List.foldl_cons, h b (by simp)]
    simpa using ih (fun x hx => h x (by simp [hx]))

theorem lastRunHead_nonspace (x : Int) (X : List Int) (hx : wspace x = false)
    (hX : ∀ b ∈ X, wspace b = false) : lastRunHead (x :: X) = some x := by
  unfold lastRunHead
  rw [List.foldl_cons, hx]
  simpa using lastRunHead_stay x X hX

theorem lineExcl_nil : lineExcl [] = 0 := rfl

theorem lineExcl_prefix (X : List Int) (d : Int) (M : List Int)
    (hX : firstPair X = none) (hd : wspace d = true) :
    lineExcl (X ++ d :: M) = lineExcl M := by
  have hd47 : d ≠ 47 := fun h => by rw [h] at hd; exact absurd hd (by decide)
  unfold lineExcl
  rw [firstPair_append_none d M hd47 X hX]
  cases hM : firstPair M with
  | none => rfl
  | some k =>
    simp only [Option.map_some']
    have harith : k + (X.length + 1) = X.length + (1 + k) := by omega
    have hdrop : (X ++ d :: M).drop (k + (X.length + 1)) = M.drop k := by
      rw [harith, List.drop_append]
      rw [Nat.add_comm 1 k, List.drop_succ_cons]
    have htake : (X ++ d :: M).take (k + (X.length + 1)) = X ++ d :: M.take k := by
      rw [harith, List.take_append]
      rw [Nat.add_comm 1 k, List.take_succ_cons]
    rw [hdrop, htake, lastRunHead_append_wspace X d _ hd]

theorem takeWhile_append_all (p : Int → Bool) (Y : List Int) :
    ∀ X : List Int, (∀ b ∈ X, p b = true) →
      (X ++ Y).takeWhile p = X ++ Y.takeWhile p := by
  intro X
  induction X with
  | nil => intro _; rfl
  | cons a X' ih =>
    intro h
    rw [List.cons_append, List.takeWhile_cons_of_pos (h a (by simp)),
      ih (fun b hb => h b (by simp [hb])), List.cons_append]

theorem takeWhile_drop (p : Int → Bool) : ∀ (s : List Int) (n : Nat),
    n ≤ (s.takeWhile p).length → (s.takeWhile p).drop n = (s.drop n).takeWhile p := by
  intro s
  induction s with
  | nil => intro n _; simp
  | cons c r ih =>
    intro n h
    by_cases hp : p c
    · rw [List.takeWhile_cons_of_pos hp] at h ⊢
      cases n with
      | zero => simp [List.takeWhile_cons_of_pos hp]
      | succ n' =>
        simp only [List.drop_succ_cons]
        exact ih n' (by simpa using h)
    · rw [List.takeWhile_cons_of_neg hp] at h
      have hn : n = 0 := Nat.le_zero.mp (by simpa using h)
      subst hn
      simp [List.takeWhile_cons_of_neg hp]

theorem afterNl_append (Y : List Int) : ∀ X : List Int, (∀ b ∈ X, b ≠ 10) →
    afterNl (X ++ Y) = afterNl Y := by
  intro X
  induction X with
  | nil => intro _; rfl
  | cons a X' ih =>
    intro h
    rw [List.cons_append, afterNl_cons_ne _ _ (h a (by simp))]
    exact ih (fun b hb => h b (by simp [hb]))

theorem dropWhile_eq_cons_head (p : Int → Bool) :
    ∀ (r : List Int) (d : Int) (r3 : List Int),
      r.dropWhile p = d :: r3 → p d = false := by
  intro r
  induction r with
  | nil => intro d r3 h; simp at h
  | cons c r' ih =>
    intro d r3 h
    by_cases hp : p c
    · rw [List.dropWhile_cons_of_pos hp] at h
      exact ih d r3 h
    · rw [List.dropWhile_cons_of_neg hp] at h
      cases h
      simpa using hp

/-! ### The comment loop and the token loop of the second pass -/

/-- Number of word endings the comment loop of the second pass charges when
entered with previous byte `c4` and going on to consume the region `R` (the
bytes up to but not including the newline): one per maximal non-`wspace` run
of `R`, where a leading run of `R` merges with a run already in progress at
`c4`, which is itself charged. -/
def comRuns (c4 : Int) (R : List Int) : Nat :=
  countRunsAux wspace R (!wspace c4) + (if wspace c4 then 0 else 1)

theorem pass2_com : ∀ (s : List Int) (c4 : Int) (nsbc : Bool) (g : Int),
    pass2 g s (.com c4 nsbc) =
      (comRuns c4 (s.takeWhile (· ≠ 10)) : Int) - (if nsbc then 1 else 0) +
        pass2 g (afterNl s) .out := by
  intro s
  induction s with
  | nil =>
    intro c4 nsbc g
    show ((if wspace c4 then 0 else 1) : Int) - (if nsbc then 1 else 0) = _
    have : afterNl [] = [] := rfl
    rw [this]
    show _ = (comRuns c4 [] : Int) - (if nsbc then 1 else 0) + 0
    by_cases h : wspace c4 <;> simp [comRuns, countRunsAux, h]
  | cons c r ih =>
    intro c4 nsbc g
    by_cases h10 : c = 10
    · subst h10
      rw [show pass2 g (10 :: r) (.com c4 nsbc) =
          (((if wspace c4 then 0 else 1) : Int) - (if nsbc then 1 else 0)) +
            pass2 g r .out from by simp [pass2]]
      rw [List.takeWhile_cons_of_neg (by simp), afterNl_cons_10]
      have : (comRuns c4 ([] : List Int) : Int) = if wspace c4 then 0 else 1 := by
        by_cases h : wspace c4 <;> simp [comRuns, countRunsAux, h]
      rw [this]
    · rw [show pass2 g (c :: r) (.com c4 nsbc) =
          ((if ¬ wspace c4 ∧ wspace c then 1 else 0) : Int) +
            pass2 g r (.com c nsbc) from by simp [pass2, h10]]
      rw [ih c nsbc g]
      rw [List.takeWhile_cons_of_pos (by simpa using h10), afterNl_cons_ne c r h10]
      have hcr : ((if ¬ wspace c4 ∧ wspace c then 1 else 0) : Int) +
          (comRuns c (r.takeWhile (· ≠ 10)) : Int) =
          (comRuns c4 (c :: r.takeWhile (· ≠ 10)) : Int) := by
        by_cases h4 : wspace c4 <;> by_cases hc : wspace c <;>
          simp [comRuns, countRunsAux, h4, hc] <;> push_cast <;> ring
      rw [← hcr]
      ring

theorem pass2_tok : ∀ (s : List Int) (c2 : Int) (nsbc : Bool) (g : Int),
    pass2 g s (.tok c2 nsbc) =
      match firstPair (c2 :: s.takeWhile (fun b => !wspace b)) with
      | none => pass2 g ((s.dropWhile (fun b => !wspace b)).tail) .out
      | some j => pass2 g (s.drop (j + 1)) (.com 47 nsbc) := by
  intro s
  induction s with
  | nil =>
    intro c2 nsbc g
    show (0 : Int) = _
    rw [show (([] : List Int).takeWhile (fun b => !wspace b)) = [] from rfl]
    rw [show firstPair [c2] = none from rfl]
    rfl
  | cons c r ih =>
    intro c2 nsbc g
    by_cases hw : wspace c
    · rw [show pass2 g (c :: r) (.tok c2 nsbc) = pass2 g r .out from by
        simp [pass2, hw]]
      rw [List.takeWhile_cons_of_neg (by simp [hw]),
        List.dropWhile_cons_of_neg (by simp [hw])]
      rw [show firstPair [c2] = none from rfl]
      rfl
    · by_cases hm : c = 47 ∧ c2 = 47
      · obtain ⟨hc, hc2⟩ := hm
        subst hc
        subst hc2
        rw [show pass2 g (47 :: r) (.tok 47 nsbc) = pass2 g r (.com 47 nsbc) from by
          simp [pass2, wspace]]
        rw [List.takeWhile_cons_of_pos (by simp [hw])]
        rw [show firstPair ((47 : Int) :: 47 :: r.takeWhile (fun b => !wspace b)) =
          some 0 from by simp [firstPair]]
        rfl
      · rw [show pass2 g (c :: r) (.tok c2 nsbc) = pass2 g r (.tok c nsbc) from by
          simp [pass2, hw, hm]]
        rw [ih c nsbc g]
        rw [List.takeWhile_cons_of_pos (by simp [hw]),
          List.dropWhile_cons_of_pos (by simp [hw])]
        rw [firstPair_cons' c2 (c :: r.takeWhile (fun b => !wspace b))
          (fun hh => hm ⟨by simpa using hh.2, hh.1⟩)]
        cases firstPair (c :: r.takeWhile (fun b => !wspace b)) with
        | none => rfl
        | some j' => rfl

theorem takeWhile_all (p : Int → Bool) : ∀ X : List Int, (∀ b ∈ X, p b = true) →
    X.takeWhile p = X := by
  intro X
  induction X with
  | nil => intro _; rfl
  | cons a X' ih =>
    intro h
    rw [List.takeWhile_cons_of_pos (h a (by simp)),
      ih (fun b hb => h b (by simp [hb]))]

theorem afterNl_all (X : List Int) (h : ∀ b ∈ X, b ≠ 10) : afterNl X = [] := by
  have h2 : afterNl (X ++ []) = afterNl [] := afterNl_append [] X h
  simpa using h2

/-! ### The second exclusion pass computes `wordsSum` -/

theorem pass2_out_words : ∀ (n : Nat) (s : List Int), s.length ≤ n →
    ∀ g : Int, g ≠ 47 → pass2 g s .out = wordsSum s := by
  intro n
  induction n with
  | zero =>
    intro s hs g _
    have hnil : s = [] := List.length_eq_zero.mp (Nat.le_zero.mp hs)
    subst hnil
    rw [wordsSum_nil]
    rfl
  | succ n ih =>
    intro s hs g hg
    cases s with
    | nil => rw [wordsSum_nil]; rfl
    | cons c r =>
      by_cases hw : wspace c
      · rw [show pass2 g (c :: r) .out = pass2 g r .out from by simp [pass2, hw]]
        rw [ih r (Nat.le_of_succ_le_succ (by simpa using hs)) g hg]
        by_cases h10 : c = 10
        · subst h10
          rw [wordsSum_eq (10 :: r), List.takeWhile_cons_of_neg (by simp),
            afterNl_cons_10, lineExcl_nil]
          ring
        · rw [wordsSum_eq (c :: r), List.takeWhile_cons_of_pos (by simpa using h10),
            afterNl_cons_ne c r h10]
          have hpre := lineExcl_prefix [] c (r.takeWhile (· ≠ 10)) rfl (by simpa using hw)
          rw [List.nil_append] at hpre
          rw [hpre, ← wordsSum_eq r]
      · have hm : ¬ (c = 47 ∧ g = 47) := fun hh => hg hh.2
        have hwf : wspace c = false := by simpa using hw
        rw [show pass2 g (c :: r) .out = pass2 g r (.tok c (decide (c ≠ 47))) from by
          simp [pass2, hw, hm]]
        rw [pass2_tok r c (decide (c ≠ 47)) g]
        have hXall : ∀ b ∈ c :: r.takeWhile (fun b => !wspace b), wspace b = false := by
          intro b hb
          rcases List.mem_cons.mp hb with hb | hb
          · rw [hb]; exact hwf
          · simpa using List.mem_takeWhile_imp hb
        have hX10 : ∀ b ∈ c :: r.takeWhile (fun b => !wspace b), b ≠ 10 :=
          fun b hb => wspace_ne_10 b (hXall b hb)
        have hsplit : c :: r =
            (c :: r.takeWhile (fun b => !wspace b)) ++
              r.dropWhile (fun b => !wspace b) := by
          rw [List.cons_append, List.takeWhile_append_dropWhile]
        cases hfp : firstPair (c :: r.takeWhile (fun b => !wspace b)) with
        | none =>
          show pass2 g ((r.dropWhile (fun b => !wspace b)).tail) .out = _
          cases hdrop : r.dropWhile (fun b => !wspace b) with
          | nil =>
            have hr : r = r.takeWhile (fun b => !wspace b) := by
              conv_lhs => rw [← List.takeWhile_append_dropWhile
                (fun b => !wspace b) r]
              rw [hdrop, List.append_nil]
            show pass2 g [] .out = _
            have hX10' : ∀ b ∈ c :: r, b ≠ 10 := by
              intro b hb
              refine hX10 b ?_
              rcases List.mem_cons.mp hb with hb | hb
              · simp [hb]
              · rw [hr] at hb; simp [hb]
            rw [wordsSum_eq (c :: r),
              takeWhile_all (· ≠ 10) (c :: r) (fun b hb => by simpa using hX10' b hb),
              afterNl_all _ hX10', wordsSum_nil]
            have hle : lineExcl (c :: r) = 0 := by
              have hfp' : firstPair (c :: r) = none := by
                conv_lhs => rw [hr]
                exact hfp
              unfold lineExcl
              rw [hfp']
            rw [hle]
            rfl
          | cons d r3 =>
            have hd : wspace d = true := by
              simpa using dropWhile_eq_cons_head (fun b => !wspace b) r d r3 hdrop
            have hr : r = r.takeWhile (fun b => !wspace b) ++ d :: r3 := by
              conv_lhs => rw [← List.takeWhile_append_dropWhile
                (fun b => !wspace b) r]
              rw [hdrop]
            have hs' : c :: r =
                (c :: r.takeWhile (fun b => !wspace b)) ++ d :: r3 := by
              conv_lhs => rw [hsplit, hdrop]
            show pass2 g r3 .out = _
            have hlen3 : r3.length ≤ n := by
              have h1 : r.length ≤ n := Nat.le_of_succ_le_succ (by simpa using hs)
              have h2 := congrArg List.length hr
              simp only [List.length_append, List.length_cons] at h2
              omega
            rw [ih r3 hlen3 g hg]
            by_cases hd10 : d = 10
            · subst hd10
              rw [hs',
                wordsSum_eq ((c :: r.takeWhile (fun b => !wspace b)) ++ 10 :: r3),
                takeWhile_append_all (· ≠ 10) (10 :: r3)
                  (c :: r.takeWhile (fun b => !wspace b))
                  (fun b hb => by simpa using hX10 b hb),
                List.takeWhile_cons_of_neg (by simp), List.append_nil,
                afterNl_append (10 :: r3) _ hX10, afterNl_cons_10]
              have hle : lineExcl (c :: r.takeWhile (fun b => !wspace b)) = 0 := by
                unfold lineExcl
                rw [hfp]
              rw [hle]
              ring
            · rw [hs',
                wordsSum_eq ((c :: r.takeWhile (fun b => !wspace b)) ++ d :: r3),
                takeWhile_append_all (· ≠ 10) (d :: r3)
                  (c :: r.takeWhile (fun b => !wspace b))
                  (fun b hb => by simpa using hX10 b hb),
                List.takeWhile_cons_of_pos (by simpa using hd10),
                afterNl_append (d :: r3) _ hX10, afterNl_cons_ne d r3 hd10,
                lineExcl_prefix _ d _ hfp hd, ← wordsSum_eq r3]
        | some j =>
          show pass2 g (r.drop (j + 1)) (.com 47 (decide (c ≠ 47))) = _
          rw [pass2_com]
          have hj2 : j + 2 ≤ (c :: r.takeWhile (fun b => !wspace b)).length :=
            firstPair_some_le _ j hfp
          have hL : (c :: r).takeWhile (· ≠ 10) =
              (c :: r.takeWhile (fun b => !wspace b)) ++
                (r.dropWhile (fun b => !wspace b)).takeWhile (· ≠ 10) := by
            conv_lhs => rw [hsplit]
            exact takeWhile_append_all (· ≠ 10) (r.dropWhile (fun b => !wspace b))
              (c :: r.takeWhile (fun b => !wspace b))
              (fun b hb => by simpa using hX10 b hb)
          have hfpL : firstPair ((c :: r).takeWhile (· ≠ 10)) = some j := by
            rw [hL]
            exact firstPair_append _ _ j hfp
          have hAN : afterNl (c :: r) = afterNl (r.drop (j + 1)) := by
            have htk : ∀ b ∈ (c :: r).take (j + 2), b ≠ 10 := by
              intro b hb
              have heq : (c :: r).take (j + 2) =
                  (c :: r.takeWhile (fun b => !wspace b)).take (j + 2) := by
                conv_lhs => rw [hsplit]
                exact List.take_append_of_le_length hj2
              rw [heq] at hb
              exact hX10 b (List.take_subset _ _ hb)
            conv_lhs => rw [← List.take_append_drop (j + 2) (c :: r)]
            rw [afterNl_append _ _ htk]
            rfl
          rw [wordsSum_eq (c :: r), hAN]
          have hlen : (afterNl (r.drop (j + 1))).length ≤ n := by
            have h1 := afterNl_length (r.drop (j + 1))
            have h2 : (r.drop (j + 1)).length ≤ r.length := by
              simp [List.length_drop]
            have h3 : r.length ≤ n := Nat.le_of_succ_le_succ (by simpa using hs)
            omega
          rw [ih (afterNl (r.drop (j + 1))) hlen g hg]
          have hlineExcl : lineExcl ((c :: r).takeWhile (· ≠ 10)) =
              (comRuns 47 ((r.drop (j + 1)).takeWhile (· ≠ 10)) : Int) -
                (if (decide (c ≠ 47) : Bool) then 1 else 0) := by
            unfold lineExcl
            rw [hfpL]
            have hj2L : j + 2 ≤ ((c :: r).takeWhile (· ≠ 10)).length := by
              have := congrArg List.length hL
              simp only [List.length_append] at this
              omega
            have hdropL := firstPair_drop _ j hfpL
            have hQ : ((c :: r).takeWhile (· ≠ 10)).drop (j + 2) =
                ((c :: r).drop (j + 2)).takeWhile (· ≠ 10) :=
              takeWhile_drop _ (c :: r) (j + 2) hj2L
            have hruns : countRunsBy wspace (((c :: r).takeWhile (· ≠ 10)).drop j) =
                comRuns 47 ((r.drop (j + 1)).takeWhile (· ≠ 10)) := by
              rw [hdropL, hQ]
              show countRunsBy wspace
                (47 :: 47 :: (r.drop (j + 1)).takeWhile (· ≠ 10)) = _
              simp [countRunsBy, countRunsAux, comRuns, wspace_47]
              omega
            show (countRunsBy wspace (((c :: r).takeWhile (· ≠ 10)).drop j) : Int) -
                (if ((lastRunHead (((c :: r).takeWhile (· ≠ 10)).take j)).getD 47) ≠ 47
                  then 1 else 0) = _
            rw [hruns]
            cases j with
            | zero =>
              have hc47 : c = 47 := by
                have hdp := firstPair_drop _ 0 hfp
                simp only [List.drop_zero] at hdp
                exact (List.cons.injEq _ _ _ _).mp hdp |>.1
              simp [hc47, lastRunHead]
            | succ j' =>
              have htakeL : ((c :: r).takeWhile (· ≠ 10)).take (j' + 1) =
                  (c :: r.takeWhile (fun b => !wspace b)).take (j' + 1) := by
                rw [hL]
                exact List.take_append_of_le_length (by omega)
              have hlrh : lastRunHead (((c :: r).takeWhile (· ≠ 10)).take (j' + 1)) =
                  some c := by
                rw [htakeL]
                show lastRunHead
                  (c :: (r.takeWhile (fun b => !wspace b)).take j') = some c
                refine lastRunHead_nonspace c _ hwf ?_
                intro b hb
                exact hXall b (by simp [List.take_subset _ _ hb])
              rw [hlrh]
              by_cases hc : c = 47 <;> simp [hc]
          rw [hlineExcl]

/-! ### Claim C1: the word-exclusion pass -/

/-- C1 is refuted on the file `"/a//"`: the marker is glued to the preceding
non-delimiter bytes `/a`, so the claim prescribes the comment-region word
count 1 minus the glued-marker correction 1, i.e. 0 excluded words; but the
code decides the correction from the first byte of the token, which is `'/'`
here, so it does not decrement and charges 1 excluded word. -/
theorem claim_C1_counterexample :
    pass2 0 [47, 97, 47, 47] .out = 1 ∧
    claimWordExclusion [47, 97, 47, 47] = 0 ∧ (1 : Int) ≠ 0 := by decide

/-- C1 (amended): for every input file (and any value of the uninitialized
scratch byte other than `'/'`), the word-exclusion pass computes
`excluded_words` as the sum over newline-separated lines of `lineExcl`: only
the first `//` marker of each line is processed (the rest of the line is
consumed with it); it contributes the number of maximal non-delimiter runs
from the marker to the end of the line, decremented by one if and only if
the token containing the marker does not begin with a `'/'` byte.  In
particular, for the input `"foo//bar baz\n"` the word `foo` remains counted:
the reported word count is 1. -/
theorem claim_C1 :
    (∀ (s : List Int) (g : Int), g ≠ 47 → pass2 g s .out = wordsSum s) ∧
    ((wcCounts [102, 111, 111, 47, 47, 98, 97, 114, 32, 98, 97, 122, 10]).2.1 : Int) -
        pass2 0 [102, 111, 111, 47, 47, 98, 97, 114, 32, 98, 97, 122, 10] .out = 1 :=
  ⟨fun s g hg => pass2_out_words s.length s le_rfl g hg, by decide⟩

theorem claim_C1_witness :
    (0 : Int) ≠ 47 ∧
    pass2 0 [47, 47, 32, 97, 10, 98] .out = wordsSum [47, 47, 32, 97, 10, 98] :=
  ⟨by decide, claim_C1.1 [47, 47, 32, 97, 10, 98] 0 (by decide)⟩

theorem claim_C9_witness :
    totalsLine (runFiles false 0 0 (fun _ => none) [0, 1] (0, 0) (0, 0, 0)) 2 = none :=
  (claim_C9 false 0 0 (fun _ => none) [0, 1]).2.1 (by decide)

end Mywc
